import Mathlib

/-!
Verification development for `match_ids.py`, a small tool that filters and
groups tab-separated alignment output.

The development is a shallow embedding of the script:

* Python `float` values are modelled by `PyFloat`: an exact rational for the
  finite case plus the special values `inf`, `-inf` and `nan`.  Where CPython
  stores the nearest IEEE-754 double, the model keeps the exact decimal value
  of the parsed text; all concrete values appearing in the claims are such
  that the double rounds back to the same decimal, so the two agree there.
* `str.splitlines`, `str.split("\t")`, `float(str)` parsing (ASCII digits,
  underscores between digits, optional exponent, `inf`/`nan` spellings),
  the `f-string` formats `0.1f` and the default float `repr` are modelled
  character by character.
* `find_matches` is the line fold of the source, producing both the grouped
  match collection (an insertion-ordered association list, mirroring
  `defaultdict(list)` plus dict insertion order) and the list of lines the
  source prints to `stderr`.
* `run` is modelled over an explicit environment carrying the exit statuses
  and captured stdout of the two `diamond` subprocess invocations; the
  outcome type records whether the script aborted (via `check=True`, resp.
  `check_returncode`) or succeeded, and which files it removed.
-/

set_option autoImplicit false

namespace MatchIds

/-! ## Python float model -/

/-- Model of a CPython `float` value: exact rational for finite values plus
the IEEE special values. -/
inductive PyFloat where
  | finite (q : ℚ)
  | inf
  | neginf
  | nan
  deriving DecidableEq, Repr

/-- Python `x >= y` on floats: any comparison involving `nan` is false. -/
def PyFloat.ge : PyFloat → PyFloat → Bool
  | .nan, _ => false
  | _, .nan => false
  | .inf, _ => true
  | _, .inf => false
  | .neginf, .neginf => true
  | .neginf, .finite _ => false
  | .finite _, .neginf => true
  | .finite a, .finite b => decide (b ≤ a)

/-- Characters stripped by `float(str)` around the number. -/
def isPySpace (c : Char) : Bool :=
  c = ' ' ∨ c = '\t' ∨ c = '\n' ∨ c = '\r' ∨ c = '\x0b' ∨ c = '\x0c'

/-- Strip leading and trailing whitespace. -/
def stripWs (l : List Char) : List Char :=
  ((l.dropWhile isPySpace).reverse.dropWhile isPySpace).reverse

/-- Digit runs in Python float literals: decimal digits, optionally separated
by single underscores (an underscore must sit between two digits).  Continues
an already started run; returns the value so far, the number of digits
consumed and the unconsumed remainder. -/
def digitRun : List Char → ℕ → ℕ → ℕ × ℕ × List Char
  | [], v, n => (v, n, [])
  | '_' :: d :: rest, v, n =>
      if d.isDigit then digitRun rest (v * 10 + (d.toNat - 48)) (n + 1)
      else (v, n, '_' :: d :: rest)
  | ['_'], v, n => (v, n, ['_'])
  | c :: rest, v, n =>
      if c.isDigit then digitRun rest (v * 10 + (c.toNat - 48)) (n + 1)
      else (v, n, c :: rest)

/-- Parse a digit run that must start with a digit. -/
def parseDigitRun : List Char → Option (ℕ × ℕ × List Char)
  | [] => none
  | c :: rest =>
      if c.isDigit then some (digitRun rest (c.toNat - 48) 1) else none

/-- Parse the exponent digits; the whole remainder must be consumed. -/
def parseExpDigits (l : List Char) : Option ℤ :=
  match parseDigitRun l with
  | some (v, _, []) => some (v : ℤ)
  | _ => none

/-- Parse an optional exponent part (`e`/`E`, optional sign, digits); the
whole remainder must be consumed.  An absent exponent yields `0`. -/
def parseExpPart : List Char → Option ℤ
  | [] => some 0
  | c :: rest =>
      if c = 'e' ∨ c = 'E' then
        match rest with
        | '+' :: rest2 => parseExpDigits rest2
        | '-' :: rest2 => (parseExpDigits rest2).map (fun n => -n)
        | _ => parseExpDigits rest
      else none

/-- Powers of ten (kernel-friendly structural recursion). -/
def pow10 : ℕ → ℕ
  | 0 => 1
  | n + 1 => 10 * pow10 n

/-- Assemble `(intPart + fracPart / 10 ^ fracDigits) * 10 ^ exp` exactly.
Built from `mkRat` so that the kernel can evaluate it. -/
def mkQ (intPart fracPart fracDigits : ℕ) (exp : ℤ) : ℚ :=
  let digits : ℕ := intPart * pow10 fracDigits + fracPart
  match exp with
  | Int.ofNat n => mkRat ((digits * pow10 n : ℕ) : ℤ) (pow10 fracDigits)
  | Int.negSucc n => mkRat ((digits : ℕ) : ℤ) (pow10 fracDigits * pow10 (n + 1))

/-- Parse an unsigned Python float literal (no special values), requiring the
whole input to be consumed. -/
def parseUnsigned (l : List Char) : Option ℚ :=
  match l with
  | '.' :: rest =>
      match parseDigitRun rest with
      | some (fv, fn, rest2) => (parseExpPart rest2).map (mkQ 0 fv fn)
      | none => none
  | _ =>
      match parseDigitRun l with
      | some (iv, _, rest) =>
          match rest with
          | '.' :: rest2 =>
              match parseDigitRun rest2 with
              | some (fv, fn, rest3) => (parseExpPart rest3).map (mkQ iv fv fn)
              | none => (parseExpPart rest2).map (mkQ iv 0 0)
          | _ => (parseExpPart rest).map (mkQ iv 0 0)
      | none => none

/-- Model of Python `float(str)`: strip whitespace, optional sign, then a
case-insensitive special value or a numeric literal.  `none` models the
`ValueError` raised on malformed input. -/
def pyFloat (s : String) : Option PyFloat :=
  match stripWs s.data with
  | [] => none
  | l =>
      let signed : Bool × List Char :=
        match l with
        | '+' :: rest => (false, rest)
        | '-' :: rest => (true, rest)
        | _ => (false, l)
      let neg := signed.1
      let body := signed.2
      let low := body.map Char.toLower
      if low = "inf".data ∨ low = "infinity".data then
        some (if neg then .neginf else .inf)
      else if low = "nan".data then some .nan
      else
        match parseUnsigned body with
        | some q => some (.finite (if neg then Rat.neg q else q))
        | none => none

/-! ## Python float formatting -/

/-- Multiplication on ℚ via `mkRat` (the `Rat.mul` of Batteries is marked
irreducible, which would block kernel evaluation). -/
def qmul (a b : ℚ) : ℚ := mkRat (a.num * b.num) (a.den * b.den)

/-- Subtraction on ℚ via `mkRat`. -/
def qsub (a b : ℚ) : ℚ := mkRat (a.num * (b.den : ℤ) - b.num * (a.den : ℤ)) (a.den * b.den)

/-- Absolute value on the rational part. -/
def qabs (q : ℚ) : ℚ := if q.num < 0 then Rat.neg q else q

/-- Floor of a rational as an integer. -/
def qfloor (q : ℚ) : ℤ := Int.fdiv q.num (q.den : ℤ)

/-- Round to the nearest integer, ties to even (the rounding of CPython
float formatting). -/
def roundHalfEven (q : ℚ) : ℤ :=
  let f := qfloor q
  let r := qsub q (mkRat f 1)
  if Rat.blt r (mkRat 1 2) then f
  else if Rat.blt (mkRat 1 2) r then f + 1
  else if f % 2 = 0 then f else f + 1

/-- Model of the Python format `f"{x:0.1f}"`: fixed-point with exactly one
digit after the decimal point. -/
def formatFixed1 : PyFloat → String
  | .nan => "nan"
  | .inf => "inf"
  | .neginf => "-inf"
  | .finite q =>
      let n := (roundHalfEven (qmul (qabs q) (mkRat 10 1))).toNat
      (if q.num < 0 then "-" else "") ++ toString (n / 10) ++ "." ++ toString (n % 10)

/-- Scale a positive rational by powers of ten until it is integral,
returning the integer and the number of scalings (the fuel bound covers the
whole double range; values produced by `pyFloat` always terminate early). -/
def decScale : ℕ → ℚ → ℤ × ℕ
  | 0, q => (q.num, 0)
  | fuel + 1, q =>
      if q.den = 1 then (q.num, 0)
      else
        let p := decScale fuel (qmul q (mkRat 10 1))
        (p.1, p.2 + 1)

/-- Strip trailing decimal zeros from a natural number, returning the
stripped number and how many zeros were removed. -/
def stripZeros : ℕ → ℕ → ℕ × ℕ
  | 0, n => (n, 0)
  | fuel + 1, n =>
      if n = 0 then (n, 0)
      else if n % 10 = 0 then
        let p := stripZeros fuel (n / 10)
        (p.1, p.2 + 1)
      else (n, 0)

/-- A run of `k` zero characters. -/
def zeros (k : ℕ) : String := (List.replicate k '0').asString

/-- Shortest-digits float `repr` layout of CPython: fixed notation when the
decimal point position is in `(-4, 16]`, scientific notation otherwise, with
a signed two-digit-minimum exponent. -/
def pyReprDigits (digits : List Char) (decpt : ℤ) : String :=
  if -4 < decpt ∧ decpt ≤ 16 then
    if decpt ≤ 0 then "0." ++ zeros (-decpt).toNat ++ digits.asString
    else if (digits.length : ℤ) ≤ decpt then
      digits.asString ++ zeros (decpt.toNat - digits.length) ++ ".0"
    else (digits.take decpt.toNat).asString ++ "." ++ (digits.drop decpt.toNat).asString
  else
    let e := decpt - 1
    let mant :=
      if digits.length ≤ 1 then digits.asString
      else (digits.take 1).asString ++ "." ++ (digits.drop 1).asString
    let a := e.natAbs
    mant ++ "e" ++ (if e < 0 then "-" else "+") ++
      (if a < 10 then "0" ++ toString a else toString a)

/-- Model of Python `f"{x}"` = `repr` on a finite float value.  Exact for
values that are terminating decimals of at most double precision, which is
every value `pyFloat` produces from alignment output. -/
def pyReprQ (q : ℚ) : String :=
  if q.num = 0 then "0.0"
  else
    let sign := if q.num < 0 then "-" else ""
    let p := decScale 1200 (qabs q)
    let n := p.1.toNat
    let k := p.2
    let sz := stripZeros n n
    let digits := (toString sz.1).data
    let decpt : ℤ := (digits.length : ℤ) + (sz.2 : ℤ) - (k : ℤ)
    sign ++ pyReprDigits digits decpt

/-- Model of Python `f"{x}"` on floats. -/
def pyRepr : PyFloat → String
  | .finite q => pyReprQ q
  | .inf => "inf"
  | .neginf => "-inf"
  | .nan => "nan"

/-! ## String splitting -/

/-- Line boundary characters of `str.splitlines` (besides the two-character
boundary `"\r\n"`). -/
def isLineBreak (c : Char) : Bool :=
  c = '\n' ∨ c = '\r' ∨ c = '\x0b' ∨ c = '\x0c' ∨
  c = '\x1c' ∨ c = '\x1d' ∨ c = '\x1e' ∨ c = '\x85' ∨
  c = '\u2028' ∨ c = '\u2029'

/-- Worker for `splitlines`: `acc` holds the current line, reversed.  A final
line is emitted only if non-empty, so a single trailing terminator does not
produce an empty line. -/
def splitlinesAux : List Char → List Char → List String
  | [], acc => if acc = [] then [] else [acc.reverse.asString]
  | '\r' :: '\n' :: rest, acc => acc.reverse.asString :: splitlinesAux rest []
  | c :: rest, acc =>
      if isLineBreak c then acc.reverse.asString :: splitlinesAux rest []
      else splitlinesAux rest (c :: acc)

/-- Model of Python `str.splitlines()`. -/
def splitlines (s : String) : List String := splitlinesAux s.data []

/-- Worker for `splitTab`. -/
def splitTabAux : List Char → List Char → List String
  | [], acc => [acc.reverse.asString]
  | '\t' :: rest, acc => acc.reverse.asString :: splitTabAux rest []
  | c :: rest, acc => splitTabAux rest (c :: acc)

/-- Model of Python `str.split("\t")`; always returns at least one field. -/
def splitTab (s : String) : List String := splitTabAux s.data []

/-! ## The Match data model and the filter -/

/-- One reference-protein hit, as stored by `find_matches`. -/
structure Match where
  reference_id : String
  pident : PyFloat
  evalue : PyFloat
  bitscore : PyFloat
  deriving DecidableEq, Repr

/-- `Match.to_table` of the source: reference id verbatim, percent identity
and bit score with one decimal, e-value in default `f"{...}"` form. -/
def Match.to_table (m : Match) : List String :=
  [m.reference_id, formatFixed1 m.pident, pyRepr m.evalue, formatFixed1 m.bitscore]

/-- Outcome of the `try` block body on one line: either the five fields with
the three numeric ones converted, or the `ValueError` case (wrong field
count or a failed `float` conversion). -/
inductive LineResult where
  | parsed (qid rid : String) (p e b : PyFloat)
  | malformed
  deriving DecidableEq, Repr

/-- Destructure the split fields and run the three `float` conversions. -/
def parseFields : List String → LineResult
  | [qid, rid, ps, es, bs] =>
      match pyFloat ps, pyFloat es, pyFloat bs with
      | some p, some e, some b => .parsed qid rid p e b
      | _, _, _ => .malformed
  | _ => .malformed

/-- Parse one line of tabular output. -/
def parseLine (line : String) : LineResult := parseFields (splitTab line)

/-- The grouped collection: `defaultdict(list)` with dict insertion order is
an association list from query id to the list of its matches, keys in
first-insertion order. -/
abbrev Groups := List (String × List Match)

/-- `matches[qid].append(mt)`: append to the existing group, or create a new
group at the end of the key order. -/
def addMatch (g : Groups) (qid : String) (mt : Match) : Groups :=
  match g with
  | [] => [(qid, [mt])]
  | (k, v) :: rest =>
      if k = qid then (k, v ++ [mt]) :: rest else (k, v) :: addMatch rest qid mt

/-- State of the `find_matches` loop: the collection plus the lines printed
to `stderr` so far. -/
abbrev FMState := Groups × List String

/-- One iteration of the `find_matches` loop body. -/
def fmStep (similarity : PyFloat) (st : FMState) (line : String) : FMState :=
  match parseLine line with
  | .parsed qid rid p e b =>
      if PyFloat.ge p similarity then (addMatch st.1 qid ⟨rid, p, e, b⟩, st.2)
      else st
  | .malformed => (st.1, st.2 ++ ["failed to split " ++ line])

/-- `find_matches` of the source, also returning the `stderr` lines. -/
def find_matches (output : String) (similarity : PyFloat) : FMState :=
  (splitlines output).foldl (fmStep similarity) ([], [])

/-! ## Reporting and the run orchestration -/

/-- Join strings with tab separators, as `print(..., sep="\t")` does. -/
def joinTab : List String → String
  | [] => ""
  | [x] => x
  | x :: xs => x ++ "\t" ++ joinTab xs

/-- The stdout line printed for one match of one query id. -/
def reportLine (qid : String) (m : Match) : String :=
  joinTab (qid :: m.to_table)

/-- All report lines, iterating groups in key order and matches in list
order, as the nested `for` loops of `run` do. -/
def reportLines (g : Groups) : List String :=
  (g.map (fun kv => kv.2.map (reportLine kv.1))).flatten

/-- Fixed diamond database name of the source. -/
def REFERENCE_DB_NAME : String := "reference"

/-- Environment of one `run` invocation: exit statuses and captured stdout
of the two `diamond` subprocesses. -/
structure ToolEnv where
  makedbExit : ℕ
  blastpExit : ℕ
  blastpOut : String
  deriving DecidableEq, Repr

/-- Observable outcome of `run`: abort inside `subprocess.run(..., check=True)`
for the index build, abort in `ret.check_returncode()` for the query, or
success with the printed report, the `stderr` diagnostics and the files
removed at the end. -/
inductive RunOutcome where
  | abortedMakedb (exit : ℕ)
  | abortedBlastp (exit : ℕ)
  | success (report : List String) (diags : List String) (removed : List String)
  deriving DecidableEq, Repr

/-- Files removed by a `RunOutcome` (aborts remove nothing). -/
def RunOutcome.removed : RunOutcome → List String
  | .success _ _ r => r
  | _ => []

/-- Model of `run` after the two fasta dumps: the sequence file names are
passed in, the subprocess results come from the environment.  The source
raises out of `subprocess.run` with `check=True` if `diamond makedb` fails,
raises from `ret.check_returncode()` if `diamond blastp` fails, and
otherwise prints the report and removes the intermediates unless `keep`. -/
def run (reference_fasta query_fasta : String) (similarity : PyFloat)
    (keep : Bool) (env : ToolEnv) : RunOutcome :=
  if env.makedbExit ≠ 0 then .abortedMakedb env.makedbExit
  else if env.blastpExit ≠ 0 then .abortedBlastp env.blastpExit
  else
    let st := find_matches env.blastpOut similarity
    .success (reportLines st.1) st.2
      (if keep then [] else [reference_fasta, query_fasta, REFERENCE_DB_NAME ++ ".dmnd"])

/-! ## Derived fasta file names -/

/-- Model of `os.path.basename` on POSIX: everything after the last slash. -/
def basename (path : String) : String :=
  ((path.data.reverse.takeWhile (fun c => c ≠ '/')).reverse).asString

/-- Root part of `os.path.splitext`: cut at the last dot, except when every
character before that dot is itself a dot (leading dots name no extension). -/
def splitextRoot (b : String) : String :=
  let rb := b.data.reverse
  match rb.dropWhile (fun c => c ≠ '.') with
  | '.' :: pre => if pre.any (fun c => c ≠ '.') then pre.reverse.asString else b
  | _ => b

/-- `derive_fasta_name` of the source. -/
def derive_fasta_name (filename : String) : String :=
  splitextRoot (basename filename) ++ ".fa"

/-! ## Per-line view of the filter

The following definitions re-express one loop iteration line by line; the
fold of `find_matches` is then characterised against them. -/

/-- The surviving (query id, Match) pair a line contributes, if any. -/
def lineSurvivor (similarity : PyFloat) (line : String) : Option (String × Match) :=
  match parseLine line with
  | .parsed qid rid p e b =>
      if PyFloat.ge p similarity then some (qid, ⟨rid, p, e, b⟩) else none
  | .malformed => none

/-- The `stderr` lines a line produces: exactly one for a malformed line,
none otherwise. -/
def lineDiags (line : String) : List String :=
  match parseLine line with
  | .parsed _ _ _ _ _ => []
  | .malformed => ["failed to split " ++ line]

/-- All surviving pairs of an output text, in line order. -/
def survivors (output : String) (similarity : PyFloat) : List (String × Match) :=
  (splitlines output).filterMap (lineSurvivor similarity)

/-- Insert one surviving pair. -/
def addPair (g : Groups) (p : String × Match) : Groups := addMatch g p.1 p.2

/-- Group a list of surviving pairs. -/
def groupPairs (ps : List (String × Match)) : Groups := ps.foldl addPair []

/-- All diagnostics of an output text, in line order. -/
def allDiags (output : String) : List String :=
  ((splitlines output).map lineDiags).flatten

/-- Deduplicate, keeping the first occurrence of each element; `seen` holds
the elements already emitted. -/
def firstSeenAux : List String → List String → List String
  | [], _ => []
  | x :: xs, seen =>
      if x ∈ seen then firstSeenAux xs seen else x :: firstSeenAux xs (x :: seen)

/-- Deduplicate keeping first occurrences. -/
def firstSeen (l : List String) : List String := firstSeenAux l []

/-- The match list stored for a query id (empty when absent). -/
def groupOf : Groups → String → List Match
  | [], _ => []
  | (k, v) :: rest, q => if k = q then v else groupOf rest q

/-! ## The fold characterisation -/

theorem foldl_fmStep (sim : PyFloat) (lines : List String) :
    ∀ (g : Groups) (e : List String),
    lines.foldl (fmStep sim) (g, e) =
      ((lines.filterMap (lineSurvivor sim)).foldl addPair g,
        e ++ (lines.map lineDiags).flatten) := by
  induction lines with
  | nil => intro g e; simp
  | cons l ls ih =>
      intro g e
      simp only [List.foldl_cons, List.filterMap_cons, List.map_cons, List.flatten_cons]
      cases h : parseLine l with
      | malformed =>
          simp only [fmStep, lineSurvivor, lineDiags, h]
          rw [ih]
          simp [List.append_assoc]
      | parsed qid rid p e2 b =>
          by_cases hge : PyFloat.ge p sim = true
          · simp only [fmStep, lineSurvivor, lineDiags, h, hge, if_pos]
            rw [ih]
            simp [addPair]
          · simp only [fmStep, lineSurvivor, lineDiags, h, hge, if_neg]
            rw [ih]
            simp

theorem find_matches_eq (output : String) (sim : PyFloat) :
    find_matches output sim = (groupPairs (survivors output sim), allDiags output) := by
  unfold find_matches survivors groupPairs allDiags
  rw [foldl_fmStep]
  simp

/-! ## Grouping lemmas -/

theorem addMatch_keys (g : Groups) (q : String) (mt : Match) :
    (addMatch g q mt).map Prod.fst =
      if q ∈ g.map Prod.fst then g.map Prod.fst else g.map Prod.fst ++ [q] := by
  induction g with
  | nil => simp [addMatch]
  | cons kv rest ih =>
      obtain ⟨k, v⟩ := kv
      by_cases h : k = q
      · subst h
        simp [addMatch]
      · simp only [addMatch, if_neg h, List.map_cons]
        rw [ih]
        by_cases hm : q ∈ rest.map Prod.fst <;>
          simp [hm, Ne.symm h]

theorem groupOf_addMatch_self (g : Groups) (q : String) (mt : Match) :
    groupOf (addMatch g q mt) q = groupOf g q ++ [mt] := by
  induction g with
  | nil => simp [addMatch, groupOf]
  | cons kv rest ih =>
      obtain ⟨k, v⟩ := kv
      by_cases h : k = q
      · subst h
        simp [addMatch, groupOf]
      · simp [addMatch, groupOf, h, ih]

theorem groupOf_addMatch_ne (g : Groups) (q q2 : String) (mt : Match) (h : q ≠ q2) :
    groupOf (addMatch g q mt) q2 = groupOf g q2 := by
  induction g with
  | nil => simp [addMatch, groupOf, h]
  | cons kv rest ih =>
      obtain ⟨k, v⟩ := kv
      by_cases hk : k = q
      · subst hk
        simp [addMatch, groupOf, h, ih]
      · simp only [addMatch, if_neg hk]
        by_cases hk2 : k = q2 <;> simp [groupOf, hk2, ih]

theorem mem_addMatch (g : Groups) (q : String) (mt : Match)
    (kv : String × List Match) (x : Match) :
    kv ∈ addMatch g q mt → x ∈ kv.2 →
      (∃ kv2 ∈ g, kv2.1 = kv.1 ∧ x ∈ kv2.2) ∨ (kv.1 = q ∧ x = mt) := by
  induction g with
  | nil =>
      intro hkv hx
      simp only [addMatch, List.mem_singleton] at hkv
      subst hkv
      simp only [List.mem_singleton] at hx
      exact Or.inr ⟨rfl, hx⟩
  | cons kv2 rest ih =>
      obtain ⟨k, v⟩ := kv2
      by_cases h : k = q
      · subst h
        intro hkv hx
        simp only [addMatch, eq_self_iff_true, if_true, List.mem_cons] at hkv
        rcases hkv with hkv | hkv
        · subst hkv
          simp only [List.mem_append, List.mem_singleton] at hx
          rcases hx with hx | hx
          · exact Or.inl ⟨(k, v), List.mem_cons_self _ _, rfl, hx⟩
          · exact Or.inr ⟨rfl, hx⟩
        · exact Or.inl ⟨kv, List.mem_cons_of_mem _ hkv, rfl, hx⟩
      · intro hkv hx
        simp only [addMatch, if_neg h, List.mem_cons] at hkv
        rcases hkv with hkv | hkv
        · subst hkv
          exact Or.inl ⟨(k, v), List.mem_cons_self _ _, rfl, hx⟩
        · rcases ih hkv hx with ⟨kv2, hmem, hfst, hx2⟩ | hq
          · exact Or.inl ⟨kv2, List.mem_cons_of_mem _ hmem, hfst, hx2⟩
          · exact Or.inr hq

theorem addMatch_nonempty (g : Groups) (q : String) (mt : Match)
    (h : ∀ kv ∈ g, kv.2 ≠ []) : ∀ kv ∈ addMatch g q mt, kv.2 ≠ [] := by
  induction g with
  | nil =>
      intro kv hkv
      simp only [addMatch, List.mem_singleton] at hkv
      subst hkv
      simp
  | cons kv2 rest ih =>
      obtain ⟨k, v⟩ := kv2
      intro kv hkv
      by_cases hk : k = q
      · subst hk
        simp only [addMatch, eq_self_iff_true, if_true, List.mem_cons] at hkv
        rcases hkv with hkv | hkv
        · subst hkv
          simp
        · exact h kv (List.mem_cons_of_mem _ hkv)
      · simp only [addMatch, if_neg hk, List.mem_cons] at hkv
        rcases hkv with hkv | hkv
        · subst hkv
          exact h (k, v) (List.mem_cons_self _ _)
        · exact ih (fun kv3 hkv3 => h kv3 (List.mem_cons_of_mem _ hkv3)) kv hkv

theorem mem_firstSeenAux (l : List String) :
    ∀ (seen : List String) (a : String),
      a ∈ firstSeenAux l seen ↔ a ∈ l ∧ a ∉ seen := by
  induction l with
  | nil => intro seen a; simp [firstSeenAux]
  | cons x xs ih =>
      intro seen a
      by_cases hx : x ∈ seen
      · rw [firstSeenAux, if_pos hx, ih]
        constructor
        · rintro ⟨ha, hs⟩
          exact ⟨List.mem_cons_of_mem _ ha, hs⟩
        · rintro ⟨ha, hs⟩
          rcases List.mem_cons.mp ha with rfl | ha
          · exact absurd hx hs
          · exact ⟨ha, hs⟩
      · rw [firstSeenAux, if_neg hx]
        constructor
        · intro ha
          rcases List.mem_cons.mp ha with rfl | ha
          · exact ⟨List.mem_cons_self _ _, hx⟩
          · rw [ih] at ha
            refine ⟨List.mem_cons_of_mem _ ha.1, fun hs => ha.2 (List.mem_cons_of_mem _ hs)⟩
        · rintro ⟨ha, hs⟩
          rcases List.mem_cons.mp ha with rfl | ha
          · exact List.mem_cons_self _ _
          · by_cases hax : a = x
            · subst hax
              exact List.mem_cons_self _ _
            · refine List.mem_cons_of_mem _ ?_
              rw [ih]
              refine ⟨ha, fun hs2 => ?_⟩
              rcases List.mem_cons.mp hs2 with rfl | hs2
              · exact hax rfl
              · exact hs hs2

theorem firstSeenAux_append (l : List String) :
    ∀ (seen : List String) (q : String),
      firstSeenAux (l ++ [q]) seen =
        if q ∈ seen ∨ q ∈ l then firstSeenAux l seen
        else firstSeenAux l seen ++ [q] := by
  induction l with
  | nil =>
      intro seen q
      by_cases h : q ∈ seen <;> simp [firstSeenAux, h]
  | cons x xs ih =>
      intro seen q
      by_cases hx : x ∈ seen
      · rw [List.cons_append, firstSeenAux, if_pos hx, firstSeenAux, if_pos hx, ih]
        by_cases hq : q ∈ seen ∨ q ∈ xs
        · rw [if_pos hq, if_pos]
          rcases hq with hq | hq
          · exact Or.inl hq
          · exact Or.inr (List.mem_cons_of_mem _ hq)
        · have hq2 : ¬(q ∈ seen ∨ q ∈ x :: xs) := by
            intro hq2
            rcases hq2 with hq2 | hq2
            · exact hq (Or.inl hq2)
            · rcases List.mem_cons.mp hq2 with rfl | hq2
              · exact hq (Or.inl hx)
              · exact hq (Or.inr hq2)
          rw [if_neg hq, if_neg hq2]
      · rw [List.cons_append, firstSeenAux, if_neg hx, firstSeenAux, if_neg hx, ih]
        by_cases hq : q ∈ x :: seen ∨ q ∈ xs
        · rw [if_pos hq, if_pos]
          rcases hq with hq | hq
          · rcases List.mem_cons.mp hq with rfl | hq
            · exact Or.inr (List.mem_cons_self _ _)
            · exact Or.inl hq
          · exact Or.inr (List.mem_cons_of_mem _ hq)
        · have hq2 : ¬(q ∈ seen ∨ q ∈ x :: xs) := by
            intro hq2
            rcases hq2 with hq2 | hq2
            · exact hq (Or.inl (List.mem_cons_of_mem _ hq2))
            · rcases List.mem_cons.mp hq2 with rfl | hq2
              · exact hq (Or.inl (List.mem_cons_self _ _))
              · exact hq (Or.inr hq2)
          rw [if_neg hq, if_neg hq2, List.cons_append]

theorem groupPairs_append (ps : List (String × Match)) (p : String × Match) :
    groupPairs (ps ++ [p]) = addPair (groupPairs ps) p := by
  simp [groupPairs, List.foldl_append]

theorem keys_groupPairs (ps : List (String × Match)) :
    (groupPairs ps).map Prod.fst = firstSeen (ps.map Prod.fst) := by
  induction ps using List.reverseRecOn with
  | nil => simp [groupPairs, firstSeen, firstSeenAux]
  | append_singleton ps p ih =>
      have hmem : p.1 ∈ firstSeenAux (List.map Prod.fst ps) [] ↔ p.1 ∈ List.map Prod.fst ps := by
        rw [mem_firstSeenAux]
        simp
      rw [groupPairs_append, addPair, addMatch_keys, ih, List.map_append, List.map_singleton]
      simp only [firstSeen]
      rw [firstSeenAux_append]
      by_cases h : p.1 ∈ List.map Prod.fst ps
      · rw [if_pos (hmem.mpr h), if_pos (Or.inr h)]
      · rw [if_neg (fun hc => h (hmem.mp hc)), if_neg (by simp [h])]

theorem groupOf_groupPairs (ps : List (String × Match)) (q : String) :
    groupOf (groupPairs ps) q = (ps.filter (fun p => p.1 == q)).map Prod.snd := by
  induction ps using List.reverseRecOn with
  | nil => simp [groupPairs, groupOf]
  | append_singleton ps p ih =>
      rw [groupPairs_append, List.filter_append, addPair]
      by_cases h : p.1 = q
      · subst h
        rw [groupOf_addMatch_self, ih]
        simp
      · rw [groupOf_addMatch_ne _ _ _ _ h, ih]
        have hb : (p.1 == q) = false := beq_eq_false_iff_ne.mpr h
        simp [List.filter, hb]

theorem pairs_groupPairs (ps : List (String × Match)) :
    ∀ kv ∈ groupPairs ps, ∀ x ∈ kv.2, (kv.1, x) ∈ ps := by
  induction ps using List.reverseRecOn with
  | nil => simp [groupPairs]
  | append_singleton ps p ih =>
      intro kv hkv x hx
      rw [groupPairs_append] at hkv
      rcases mem_addMatch _ _ _ _ _ hkv hx with ⟨kv2, hmem, hfst, hx2⟩ | ⟨hq, hxm⟩
      · have := ih kv2 hmem x hx2
        rw [hfst] at this
        exact List.mem_append_left _ this
      · rw [hq, hxm]
        exact List.mem_append_right _ (List.mem_singleton.mpr rfl)

theorem groupPairs_nonempty (ps : List (String × Match)) :
    ∀ kv ∈ groupPairs ps, kv.2 ≠ [] := by
  induction ps using List.reverseRecOn with
  | nil => simp [groupPairs]
  | append_singleton ps p ih =>
      rw [groupPairs_append]
      exact addMatch_nonempty _ _ _ ih

/-! ## Trailing-terminator behaviour of splitlines -/

/-- True when the text is non-empty and its last character is not a line
terminator (so appending one `"\n"` only closes the current final line). -/
def lastOk (s : String) : Bool :=
  match s.data.getLast? with
  | some c => !(isLineBreak c)
  | none => false

/-- Conditional unfolding for the catch-all equation of `splitlinesAux`. -/
theorem splitlinesAux_cons (a : Char) (rest : List Char) (acc : List Char)
    (h : ∀ t, a = '\r' → rest = '\n' :: t → False) :
    splitlinesAux (a :: rest) acc =
      if isLineBreak a then acc.reverse.asString :: splitlinesAux rest []
      else splitlinesAux rest (a :: acc) := by
  rw [splitlinesAux.eq_def]
  split
  · rename_i heq
    exact absurd heq (by simp)
  · rename_i rest2 acc2 heq
    injection heq with h1 h2
    exact (h _ h1 h2).elim
  · rename_i c2 rest2 acc2 hne heq
    injection heq with h1 h2
    subst h1
    subst h2
    rfl

theorem splitlinesAux_append_nl (l : List Char) (acc : List Char) :
    (l ≠ [] ∧ ∀ c, l.getLast? = some c → isLineBreak c = false) →
    splitlinesAux (l ++ ['\n']) acc = splitlinesAux l acc := by
  induction l, acc using splitlinesAux.induct with
  | case1 =>
      rintro ⟨hne, -⟩
      exact absurd rfl hne
  | case2 acc hne =>
      rintro ⟨hne2, -⟩
      exact absurd rfl hne2
  | case3 rest acc ih =>
      rintro ⟨-, hlast⟩
      rcases rest with _ | ⟨d, t⟩
      · exact absurd (hlast '\n' rfl) (by decide)
      · show acc.reverse.asString :: splitlinesAux ((d :: t) ++ ['\n']) [] =
          acc.reverse.asString :: splitlinesAux (d :: t) []
        rw [ih ⟨by simp, fun c hc => hlast c (by rw [List.getLast?_cons_cons, List.getLast?_cons_cons, hc])⟩]
  | case4 a rest acc hside hbreak ih =>
      rintro ⟨-, hlast⟩
      rcases rest with _ | ⟨d, t⟩
      · have := hlast a rfl
        rw [hbreak] at this
        exact absurd this (by simp)
      · have hside2 : ∀ u, a = '\r' → (d :: t) ++ ['\n'] = '\n' :: u → False := by
          intro u ha hdt
          injection hdt with h1 h2
          exact hside t ha (by rw [h1])
        rw [List.cons_append,
          splitlinesAux_cons a ((d :: t) ++ ['\n']) acc hside2,
          splitlinesAux_cons a (d :: t) acc hside, if_pos hbreak, if_pos hbreak]
        congr 1
        exact ih ⟨by simp, fun c hc => hlast c (by rw [List.getLast?_cons_cons, hc])⟩
  | case5 a rest acc hside hbreak ih =>
      rintro ⟨-, hlast⟩
      have hbreak2 : isLineBreak a = false := by
        cases hb : isLineBreak a
        · rfl
        · exact absurd hb hbreak
      have hnr : a ≠ '\r' := by
        intro hr
        subst hr
        simp [isLineBreak] at hbreak2
      rcases rest with _ | ⟨d, t⟩
      · have hside2 : ∀ u, a = '\r' → ['\n'] = '\n' :: u → False := fun _ hr _ => hnr hr
        rw [List.cons_append, List.nil_append,
          splitlinesAux_cons a ['\n'] acc hside2, if_neg hbreak]
        show splitlinesAux ['\n'] (a :: acc) = splitlinesAux [a] acc
        have h1 : splitlinesAux ['\n'] (a :: acc) = [(a :: acc).reverse.asString] := rfl
        have h2 : splitlinesAux [a] acc =
            if (a :: acc) = [] then [] else [(a :: acc).reverse.asString] := by
          rw [splitlinesAux_cons a [] acc (fun _ _ hf => by injection hf), if_neg hbreak]
          rfl
        rw [h1, h2, if_neg (by simp)]
      · have hside2 : ∀ u, a = '\r' → (d :: t) ++ ['\n'] = '\n' :: u → False :=
          fun _ hr _ => hnr hr
        rw [List.cons_append,
          splitlinesAux_cons a ((d :: t) ++ ['\n']) acc hside2,
          splitlinesAux_cons a (d :: t) acc (fun _ hr _ => hnr hr),
          if_neg hbreak, if_neg hbreak]
        exact ih ⟨by simp, fun c hc => hlast c (by rw [List.getLast?_cons_cons, hc])⟩

theorem data_append (s t : String) : (s ++ t).data = s.data ++ t.data := by
  cases s
  cases t
  rfl

theorem splitlines_append_nl (s : String) (h : lastOk s = true) :
    splitlines (s ++ "\n") = splitlines s := by
  unfold splitlines
  rw [data_append]
  unfold lastOk at h
  cases hL : s.data.getLast? with
  | none =>
      rw [hL] at h
      exact absurd h (by simp)
  | some c =>
      rw [hL] at h
      refine splitlinesAux_append_nl _ _ ⟨?_, ?_⟩
      · intro hnil
        rw [hnil] at hL
        exact absurd hL (by simp)
      · intro c2 hc2
        rw [hL] at hc2
        injection hc2 with hc2
        subst hc2
        simpa using h

/-! ## Basename independence of directory components -/

theorem takeWhile_append_stop (x y : List Char) :
    (x ++ '/' :: y).takeWhile (fun c => c ≠ '/') = x.takeWhile (fun c => c ≠ '/') := by
  induction x with
  | nil => simp [List.takeWhile_cons]
  | cons a x ih =>
      by_cases h : a = '/'
      · subst h
        simp [List.takeWhile_cons]
      · simp only [List.cons_append, List.takeWhile_cons]
        rw [ih]

theorem basename_append_dir (d p : String) : basename (d ++ "/" ++ p) = basename p := by
  unfold basename
  have hdata : (d ++ "/" ++ p).data = d.data ++ '/' :: p.data := by
    rw [data_append, data_append, List.append_assoc]
    rfl
  rw [hdata, List.reverse_append]
  have : ('/' :: p.data).reverse = p.data.reverse ++ ['/'] := by simp
  rw [this, List.append_assoc, List.singleton_append, takeWhile_append_stop]

/-! ## Survivor and malformed-line lemmas -/

theorem mem_survivors (output : String) (sim : PyFloat) (q : String) (m : Match) :
    (q, m) ∈ survivors output sim → PyFloat.ge m.pident sim = true := by
  intro hmem
  rw [survivors, List.mem_filterMap] at hmem
  obtain ⟨line, hline, hsv⟩ := hmem
  unfold lineSurvivor at hsv
  cases h : parseLine line with
  | malformed =>
      rw [h] at hsv
      exact absurd hsv (by simp)
  | parsed qid rid p e b =>
      rw [h] at hsv
      dsimp only at hsv
      by_cases hge : PyFloat.ge p sim = true
      · rw [if_pos hge] at hsv
        injection hsv with hsv
        have hm2 : m = ⟨rid, p, e, b⟩ := congrArg Prod.snd hsv.symm
        rw [hm2]
        exact hge
      · rw [if_neg hge] at hsv
        exact absurd hsv (by simp)

theorem parseFields_of_length_ne :
    ∀ (fs : List String), fs.length ≠ 5 → parseFields fs = .malformed
  | [], _ => rfl
  | [_], _ => rfl
  | [_, _], _ => rfl
  | [_, _, _], _ => rfl
  | [_, _, _, _], _ => rfl
  | [_, _, _, _, _], h => absurd rfl h
  | _ :: _ :: _ :: _ :: _ :: _ :: _, _ => rfl

theorem parseFields_of_parse_fail (a b c d e : String)
    (h : pyFloat c = none ∨ pyFloat d = none ∨ pyFloat e = none) :
    parseFields [a, b, c, d, e] = .malformed := by
  simp only [parseFields]
  rcases hc : pyFloat c with _ | pc
  · rfl
  · rcases hd : pyFloat d with _ | pd
    · rfl
    · rcases he : pyFloat e with _ | pe
      · rfl
      · rcases h with h | h | h
        · rw [hc] at h
          exact absurd h (by simp)
        · rw [hd] at h
          exact absurd h (by simp)
        · rw [he] at h
          exact absurd h (by simp)

/-! ## The claims -/

/-- Claim C1: every Match stored in the collection returned by the filter
satisfies `percent_identity >= similarity_threshold` (in the Python float
order modelled by `PyFloat.ge`), and a line that parses into five fields
with three valid numerics but whose percent identity is below the threshold
leaves the loop state untouched: no Match, no report line, no error-stream
diagnostic. -/
theorem claim_C1_threshold_invariant (output : String) (sim : PyFloat) :
    (∀ kv ∈ (find_matches output sim).1, ∀ m ∈ kv.2, PyFloat.ge m.pident sim = true) ∧
    (∀ (st : FMState) (line qid rid : String) (p e b : PyFloat),
      parseLine line = .parsed qid rid p e b → PyFloat.ge p sim = false →
      fmStep sim st line = st) := by
  constructor
  · intro kv hkv m hm
    rw [find_matches_eq] at hkv
    exact mem_survivors output sim kv.1 m (pairs_groupPairs _ kv hkv m hm)
  · intro st line qid rid p e b hparse hge
    unfold fmStep
    rw [hparse]
    simp [hge]

theorem claim_C1_threshold_invariant_witness :
    PyFloat.ge
      (Match.pident ⟨"r", .finite (mkRat 95 1), .finite (mkRat 1 1), .finite (mkRat 2 1)⟩)
      (.finite (mkRat 90 1)) = true ∧
    fmStep (.finite (mkRat 96 1)) ([], []) "q\tr\t95.0\t1.0\t2.0" = ([], []) := by
  constructor
  · exact (claim_C1_threshold_invariant "q\tr\t95.0\t1.0\t2.0" (.finite (mkRat 90 1))).1
      ("q", [⟨"r", .finite (mkRat 95 1), .finite (mkRat 1 1), .finite (mkRat 2 1)⟩])
      (by decide) _ (by decide)
  · exact (claim_C1_threshold_invariant "q\tr\t95.0\t1.0\t2.0" (.finite (mkRat 96 1))).2
      ([], []) "q\tr\t95.0\t1.0\t2.0" "q" "r"
      (.finite (mkRat 95 1)) (.finite (mkRat 1 1)) (.finite (mkRat 2 1))
      (by decide) (by decide)

/-- Claim C2: a line whose tab split does not yield exactly five fields, or
one of whose three numeric fields fails the float conversion, contributes no
Match and appends exactly one diagnostic, the fixed prefix followed by the
raw line, to the error stream; the loop state is otherwise unchanged and the
step is total, so processing always continues. -/
theorem claim_C2_malformed_line (sim : PyFloat) (st : FMState) (line : String)
    (h : (splitTab line).length ≠ 5 ∨
      ∃ a b c d e, splitTab line = [a, b, c, d, e] ∧
        (pyFloat c = none ∨ pyFloat d = none ∨ pyFloat e = none)) :
    fmStep sim st line = (st.1, st.2 ++ ["failed to split " ++ line]) := by
  have hm : parseLine line = .malformed := by
    unfold parseLine
    rcases h with h | ⟨a, b, c, d, e, hsp, hnone⟩
    · exact parseFields_of_length_ne _ h
    · rw [hsp]
      exact parseFields_of_parse_fail a b c d e hnone
  unfold fmStep
  rw [hm]

theorem claim_C2_malformed_line_witness :
    fmStep (.finite (mkRat 90 1)) ([], []) "Q1\tR1\tnot-a-number" =
      ([], ["failed to split " ++ "Q1\tR1\tnot-a-number"]) :=
  claim_C2_malformed_line _ _ _ (Or.inl (by decide))

/-- Claim C3: the collection lists query ids in first-seen order of the
surviving lines, and the matches of each query id in the order their lines
appeared; in particular input lines with query ids `[q2, q1, q2]` all above
threshold report q2's first match, q2's second match, then q1's match. -/
theorem claim_C3_first_seen_order (output : String) (sim : PyFloat) :
    ((find_matches output sim).1.map Prod.fst =
      firstSeen ((survivors output sim).map Prod.fst)) ∧
    (∀ q, groupOf (find_matches output sim).1 q =
      ((survivors output sim).filter (fun p => p.1 == q)).map Prod.snd) ∧
    reportLines (find_matches
      "q2\tr1\t95.0\t1.0\t10.0\nq1\tr2\t95.0\t1.0\t10.0\nq2\tr3\t95.0\t1.0\t10.0"
      (.finite (mkRat 90 1))).1 =
      ["q2\tr1\t95.0\t1.0\t10.0", "q2\tr3\t95.0\t1.0\t10.0", "q1\tr2\t95.0\t1.0\t10.0"] := by
  refine ⟨?_, ?_, by decide⟩
  · rw [find_matches_eq]
    exact keys_groupPairs _
  · intro q
    rw [find_matches_eq]
    exact groupOf_groupPairs _ q

/-- Claim C4: each reported match is one line of five tab-separated fields:
query id, reference id verbatim, percent identity to one decimal, e-value in
default representation, bit score to one decimal; the alignment output line
`Q1\tR1\t95.5\t1e-10\t120.3` at threshold 90 yields exactly that report
line back. -/
theorem claim_C4_report_format :
    (∀ (qid : String) (m : Match),
      reportLine qid m = joinTab
        [qid, m.reference_id, formatFixed1 m.pident, pyRepr m.evalue, formatFixed1 m.bitscore]) ∧
    reportLines (find_matches "Q1\tR1\t95.5\t1e-10\t120.3" (.finite (mkRat 90 1))).1 =
      ["Q1\tR1\t95.5\t1e-10\t120.3"] :=
  ⟨fun _ _ => rfl, by decide⟩

/-- Claim C5: the derived sequence filename is the base name of the input
path with its final extension replaced by the fixed extension `.fa`, and it
does not depend on directory components prepended to the path. -/
theorem claim_C5_derived_name (p : String) :
    derive_fasta_name p = splitextRoot (basename p) ++ ".fa" ∧
    ∀ d : String, derive_fasta_name (d ++ "/" ++ p) = derive_fasta_name p := by
  refine ⟨rfl, fun d => ?_⟩
  unfold derive_fasta_name
  rw [basename_append_dir]

/-- Claim C6: a failing index build aborts the run before the query step; a
failing query invocation is caught by the explicit status check and aborts
with that exit, printing no report; when both succeed the run ends in
success with the printed report. -/
theorem claim_C6_exit_behaviour (rf qf : String) (sim : PyFloat) (keep : Bool) (env : ToolEnv) :
    (env.makedbExit ≠ 0 → run rf qf sim keep env = .abortedMakedb env.makedbExit) ∧
    (env.makedbExit = 0 → env.blastpExit ≠ 0 →
      run rf qf sim keep env = .abortedBlastp env.blastpExit) ∧
    (env.makedbExit = 0 → env.blastpExit = 0 →
      run rf qf sim keep env =
        .success (reportLines (find_matches env.blastpOut sim).1)
          (find_matches env.blastpOut sim).2
          (if keep then [] else [rf, qf, REFERENCE_DB_NAME ++ ".dmnd"])) := by
  refine ⟨?_, ?_, ?_⟩
  · intro h1
    unfold run
    rw [if_pos h1]
  · intro h1 h2
    unfold run
    rw [if_neg (by simp [h1]), if_pos h2]
  · intro h1 h2
    unfold run
    rw [if_neg (by simp [h1]), if_neg (by simp [h2])]

theorem claim_C6_exit_behaviour_witness :
    run "r.fa" "q.fa" (.finite (mkRat 90 1)) true ⟨1, 0, ""⟩ = .abortedMakedb 1 ∧
    run "r.fa" "q.fa" (.finite (mkRat 90 1)) true ⟨0, 2, ""⟩ = .abortedBlastp 2 ∧
    run "r.fa" "q.fa" (.finite (mkRat 90 1)) true ⟨0, 0, ""⟩ =
      .success (reportLines (find_matches "" (.finite (mkRat 90 1))).1)
        (find_matches "" (.finite (mkRat 90 1))).2 [] :=
  ⟨(claim_C6_exit_behaviour "r.fa" "q.fa" _ true ⟨1, 0, ""⟩).1 (by decide),
   (claim_C6_exit_behaviour "r.fa" "q.fa" _ true ⟨0, 2, ""⟩).2.1 rfl (by decide),
   (claim_C6_exit_behaviour "r.fa" "q.fa" _ true ⟨0, 0, ""⟩).2.2 rfl rfl⟩

/-- Claim C7: the filter is a pure function of the output text and the
threshold, so invoking it twice yields identical collections: same keys in
the same order, same per-key match lists, indeed the same state. -/
theorem claim_C7_idempotent (output : String) (sim : PyFloat) :
    let r1 := find_matches output sim
    let r2 := find_matches output sim
    r1.1.map Prod.fst = r2.1.map Prod.fst ∧
    (∀ q, groupOf r1.1 q = groupOf r2.1 q) ∧ r1 = r2 :=
  ⟨rfl, fun _ => rfl, rfl⟩

/-- Claim C8: on a successful run the three intermediate artifacts are the
two sequence files and the fixed `reference.dmnd` index; with the keep flag
the run removes nothing, without it it removes exactly those three files and
nothing else. -/
theorem claim_C8_cleanup (rf qf : String) (sim : PyFloat) (env : ToolEnv)
    (h1 : env.makedbExit = 0) (h2 : env.blastpExit = 0) :
    (run rf qf sim true env).removed = [] ∧
    (run rf qf sim false env).removed = [rf, qf, "reference.dmnd"] := by
  constructor <;>
    simp [run, h1, h2, RunOutcome.removed, REFERENCE_DB_NAME]

theorem claim_C8_cleanup_witness :
    (run "r.fa" "q.fa" (.finite (mkRat 90 1)) true ⟨0, 0, ""⟩).removed = [] ∧
    (run "r.fa" "q.fa" (.finite (mkRat 90 1)) false ⟨0, 0, ""⟩).removed =
      ["r.fa", "q.fa", "reference.dmnd"] :=
  claim_C8_cleanup "r.fa" "q.fa" (.finite (mkRat 90 1)) ⟨0, 0, ""⟩ rfl rfl

/-- Claim C9: a query id is a key of the collection exactly when one of its
lines survived parsing and the threshold, and every stored match list is
non-empty, so the report never iterates a query id with zero matches. -/
theorem claim_C9_keys_iff (output : String) (sim : PyFloat) :
    (∀ q, q ∈ (find_matches output sim).1.map Prod.fst ↔
      ∃ m, (q, m) ∈ survivors output sim) ∧
    (∀ kv ∈ (find_matches output sim).1, kv.2 ≠ []) := by
  constructor
  · intro q
    rw [find_matches_eq, keys_groupPairs, firstSeen, mem_firstSeenAux]
    constructor
    · rintro ⟨hq, -⟩
      rw [List.mem_map] at hq
      obtain ⟨p, hp, hfst⟩ := hq
      exact ⟨p.2, by rw [← hfst, Prod.mk.eta]; exact hp⟩
    · rintro ⟨m, hm⟩
      exact ⟨List.mem_map.mpr ⟨(q, m), hm, rfl⟩, by simp⟩
  · intro kv hkv
    rw [find_matches_eq] at hkv
    exact groupPairs_nonempty _ kv hkv

theorem claim_C9_keys_iff_witness :
    (∃ m, ("q", m) ∈ survivors "q\tr\t95.0\t1.0\t2.0" (.finite (mkRat 90 1))) ∧
    [(⟨"r", .finite (mkRat 95 1), .finite (mkRat 1 1), .finite (mkRat 2 1)⟩ : Match)] ≠ [] := by
  constructor
  · exact ((claim_C9_keys_iff "q\tr\t95.0\t1.0\t2.0" (.finite (mkRat 90 1))).1 "q").mp
      (by decide)
  · exact (claim_C9_keys_iff "q\tr\t95.0\t1.0\t2.0" (.finite (mkRat 90 1))).2
      ("q", [⟨"r", .finite (mkRat 95 1), .finite (mkRat 1 1), .finite (mkRat 2 1)⟩])
      (by decide)

/-- Claim C10: a single trailing newline is dropped by line splitting, so a
text that ends in one newline (after a non-terminator character) filters
exactly as without it; a blank line, as arises between two interior
newlines, is malformed: it contributes no Match and exactly one diagnostic
consisting of the fixed prefix and the empty line text. -/
theorem claim_C10_line_splitting (sim : PyFloat) :
    (∀ s : String, lastOk s = true →
      find_matches (s ++ "\n") sim = find_matches s sim) ∧
    (∀ st : FMState, fmStep sim st "" = (st.1, st.2 ++ ["failed to split "])) ∧
    splitlines "a\n\nb" = ["a", "", "b"] := by
  refine ⟨?_, fun st => rfl, rfl⟩
  intro s h
  unfold find_matches
  rw [splitlines_append_nl s h]

theorem claim_C10_line_splitting_witness :
    find_matches ("q\tr\t95.0\t1.0\t2.0" ++ "\n") (.finite (mkRat 90 1)) =
      find_matches "q\tr\t95.0\t1.0\t2.0" (.finite (mkRat 90 1)) :=
  (claim_C10_line_splitting (.finite (mkRat 90 1))).1 "q\tr\t95.0\t1.0\t2.0" (by decide)

end MatchIds
